import Mathlib

/-!  A verification model of `create_new_split.py`: the repartitioning step
`split_data`, together with the fragments of its dependencies that determine
its behaviour.

* Python `float` arithmetic is modelled exactly: a `Frac` is an unreduced
  rational number (integer numerator, positive denominator), and
  `roundDouble` rounds such a value to the nearest IEEE 754 binary64 value,
  ties to even, which is exact for zero and for normal-range magnitudes —
  every float appearing in `split_data` is in that range.  `fadd`, `fmul`
  and `fdiv` are the Python float `+`, `*`, `/`.
* `sklearn.model_selection.train_test_split` (a shuffle split with
  `train_size=None`, a float `test_size` and a fixed `random_state`) is
  modelled by `train_test_split`, parameterised by the permutation that
  `numpy.random.RandomState(42).permutation(n)` yields; theorems quantify
  over every function `rng` that returns a permutation of `0..n-1`.
* Filesystem operations are modelled as an effect trace (`Eff`): directory
  creations and file moves, replayable against a directory state by
  `runEffs`, in which moving a missing source file fails, as `shutil.move`
  does in Python.
-/

set_option maxRecDepth 100000

namespace CreateNewSplit

/-- An unreduced rational number with value `num / den`.  Every `Frac` built
by the float operations below has a positive denominator. -/
structure Frac where
  num : ℤ
  den : ℤ
deriving DecidableEq

/-- Value equality of fractions by cross multiplication (Python float `==`,
exact for the positive denominators maintained by all operations here). -/
def fracEq (a b : Frac) : Prop := a.num * b.den = b.num * a.den

instance (a b : Frac) : Decidable (fracEq a b) := by unfold fracEq; infer_instance

/-- Value order on fractions by cross multiplication. -/
def fracLt (a b : Frac) : Prop := a.num * b.den < b.num * a.den

instance (a b : Frac) : Decidable (fracLt a b) := by unfold fracLt; infer_instance

/-- Value order (non-strict) on fractions by cross multiplication. -/
def fracLe (a b : Frac) : Prop := a.num * b.den ≤ b.num * a.den

instance (a b : Frac) : Decidable (fracLe a b) := by unfold fracLe; infer_instance

/-- The fraction `1`. -/
def fOne : Frac := ⟨1, 1⟩

/-- The fraction `0`. -/
def fZero : Frac := ⟨0, 1⟩

/-- Exact sum of two fractions. -/
def fAdd (a b : Frac) : Frac := ⟨a.num * b.den + b.num * a.den, a.den * b.den⟩

/-- Exact difference of two fractions. -/
def fSub (a b : Frac) : Frac := ⟨a.num * b.den - b.num * a.den, a.den * b.den⟩

/-- Exact product of two fractions. -/
def fMul (a b : Frac) : Frac := ⟨a.num * b.num, a.den * b.den⟩

/-- Absolute value of a fraction (positive denominator). -/
def fAbs (a : Frac) : Frac := ⟨|a.num|, a.den⟩

/-- Exact quotient `a / b`, the sign moved into the numerator so that the
denominator stays positive.  Callers guard against a zero divisor, where
Python raises `ZeroDivisionError`. -/
def fDivRaw (a b : Frac) : Frac :=
  if 0 ≤ b.num then ⟨a.num * b.den, a.den * b.num⟩
  else ⟨-(a.num * b.den), -(a.den * b.num)⟩

/-- Floor of a fraction with positive denominator. -/
def ffloor (a : Frac) : ℤ := Int.fdiv a.num a.den

/-- Ceiling of a fraction with positive denominator, as the Python `math.ceil` function
computes it on the exact value of a float. -/
def fceil (a : Frac) : ℤ := -(Int.fdiv (-a.num) a.den)

/-- Round a fraction to an integer, round to nearest with ties to even. -/
def roundHalfEven (a : Frac) : ℤ :=
  let f := ffloor a
  let rnum := a.num - f * a.den
  if 2 * rnum < a.den then f
  else if a.den < 2 * rnum then f + 1
  else if f % 2 = 0 then f else f + 1

/-- Scale a positive fraction into the binade `[2^52, 2^53)` by repeated
doubling or halving, returning the scaled significand and binding exponent:
the input value equals `result.1 * 2 ^ result.2`.  The fuel bounds the
exponent range; `1300` covers every IEEE binary64 exponent. -/
def toBinade : ℕ → Frac → ℤ → Frac × ℤ
  | 0, m, e => (m, e)
  | fuel + 1, m, e =>
    if m.num < 4503599627370496 * m.den then toBinade fuel ⟨2 * m.num, m.den⟩ (e - 1)
    else if 9007199254740992 * m.den ≤ m.num then toBinade fuel ⟨m.num, 2 * m.den⟩ (e + 1)
    else (m, e)

/-- The dyadic fraction `m * 2 ^ e`. -/
def dyadic (m : ℤ) : ℤ → Frac
  | .ofNat n => ⟨m * 2 ^ n, 1⟩
  | .negSucc n => ⟨m, 2 ^ (n + 1)⟩

/-- Round a positive fraction to the nearest binary64 value, ties to even. -/
def roundPosDouble (q : Frac) : Frac :=
  let p := toBinade 1300 q 0
  dyadic (roundHalfEven p.1) p.2

/-- Round an exact rational value to the nearest IEEE 754 binary64 value
(round to nearest, ties to even).  Exact for zero and normal-range
magnitudes, which covers every float value arising in `split_data`. -/
def roundDouble (q : Frac) : Frac :=
  if q.num = 0 then fZero
  else if q.num < 0 then
    let r := roundPosDouble ⟨-q.num, q.den⟩
    ⟨-r.num, r.den⟩
  else roundPosDouble q

/-- Python float addition. -/
def fadd (a b : Frac) : Frac := roundDouble (fAdd a b)

/-- Python float multiplication. -/
def fmul (a b : Frac) : Frac := roundDouble (fMul a b)

/-- Python float division (callers guard against a zero divisor). -/
def fdiv (a b : Frac) : Frac := roundDouble (fDivRaw a b)

/-- The double denoted by a Python decimal literal with value `num / den`:
`pyFloat 7 10` is the Python float literal `0.7`. -/
def pyFloat (num den : ℤ) : Frac := roundDouble ⟨num, den⟩

/-! ### Strings, sorting and base names

Python compares strings lexicographically by code point, and `sorted` is
modelled by an insertion sort with that comparison: for a total order the
sorted rearrangement of a listing is unique, so any correct sort models
`sorted` faithfully. -/

/-- Lexicographic code-point comparison of character lists, as Python
compares strings. -/
def lexLe : List Char → List Char → Bool
  | [], _ => true
  | _ :: _, [] => false
  | a :: as, b :: bs =>
    if a.toNat < b.toNat then true
    else if b.toNat < a.toNat then false
    else lexLe as bs

/-- The Python `<=` order on strings. -/
def strLe (a b : String) : Prop := lexLe a.data b.data = true

instance : DecidableRel strLe := fun a b => by unfold strLe; infer_instance

/-- The Python `sorted` builtin on a list of strings. -/
def sortStrings (l : List String) : List String := l.insertionSort strLe

/-- The base name of a filename: `os.path.splitext(s)[0]`, everything before
the last dot, except that a run of dots leading the name carries no
extension.  (Filenames here come from `os.listdir`, so they contain no
directory separator.) -/
def splitextBase (s : String) : String :=
  let cs := s.data
  match ((List.range cs.length).filter fun i => cs.getD i ' ' = '.').getLast? with
  | none => s
  | some i => if (cs.take i).all fun c => c = '.' then s else String.mk (cs.take i)

/-- The label filename the script derives for an image: `f"{base_name}.txt"`
(`create_new_split.py`, line 113). -/
def mkLabelName (s : String) : String := splitextBase s ++ ".txt"

/-- The matching step of `split_data` (lines 103-116): sort both pool
listings, keep in sorted order each image whose base name occurs among the
label base names, and pair it with `<base>.txt`. -/
def matchedOf (imageFiles labelFiles : List String) : List (String × String) :=
  let sortedImages := sortStrings imageFiles
  let labelBases := (sortStrings labelFiles).map splitextBase
  (sortedImages.filter fun f => decide (splitextBase f ∈ labelBases)).map
    fun f => (f, mkLabelName f)

/-! ### The sklearn shuffle split -/

/-- Size validation of `sklearn.model_selection._split._validate_shuffle_split`
for a float `test_size` and `train_size=None`: a float `test_size` outside
`(0, 1)` is rejected; otherwise `n_test = ceil(test_size * n_samples)` (a
float product!), `n_train = n_samples - n_test`, and an empty train set is
rejected. -/
def validateShuffleSplit (n : ℕ) (testSize : Frac) : Except String (ℕ × ℕ) :=
  if fracLe testSize fZero ∨ fracLe fOne testSize then
    .error "test_size should be either positive and smaller than the number of samples or a float in the (0, 1) range"
  else if (n : ℤ) - fceil (fmul testSize ⟨(n : ℤ), 1⟩) = 0 then
    .error "the resulting train set will be empty"
  else
    .ok ((fceil (fmul testSize ⟨(n : ℤ), 1⟩)).toNat,
         ((n : ℤ) - fceil (fmul testSize ⟨(n : ℤ), 1⟩)).toNat)

/-- NumPy fancy indexing `xs[idx]` for a list of indices. -/
def select (idx : List ℕ) (xs : List String) : List String :=
  idx.map fun i => xs.getD i ""

/-- Model of `sklearn.model_selection.train_test_split(x, y, test_size=t,
random_state=42)`: after validating sizes, `ShuffleSplit` draws a seeded
permutation `perm` of `0..n-1` and yields `test = perm[:n_test]`,
`train = perm[n_test : n_test + n_train]`; each input array is indexed by
both, returning `(x_train, x_test, y_train, y_test)`. -/
def train_test_split (perm : List ℕ) (x y : List String) (testSize : Frac) :
    Except String (List String × List String × List String × List String) :=
  if x.length ≠ y.length then
    .error "Found input variables with inconsistent numbers of samples"
  else
    match validateShuffleSplit x.length testSize with
    | .error e => .error e
    | .ok (nTest, nTrain) =>
      let indTest := perm.take nTest
      let indTrain := (perm.drop nTest).take nTrain
      .ok (select indTrain x, select indTest x, select indTrain y, select indTest y)

/-! ### Directories, effects and `split_data` -/

/-- The three output splits. -/
inductive SplitName
  | train
  | valid
  | test
deriving DecidableEq

/-- The two sub-folders of each output split. -/
inductive SubKind
  | images
  | labels
deriving DecidableEq

/-- The directories `split_data` touches: the two flat pools, and the six
output sub-folders `<output_dir>/<split>/<kind>`. -/
inductive Dir
  | poolImages
  | poolLabels
  | out (s : SplitName) (k : SubKind)
deriving DecidableEq

/-- A file location: a directory and a filename. -/
abbrev Loc := Dir × String

/-- A filesystem effect of `split_data`: `os.makedirs` of an output
sub-folder, or `shutil.move` of one file. -/
inductive Eff
  | mkdir (s : SplitName) (k : SubKind)
  | move (src dst : Loc)
deriving DecidableEq

/-- The directory-creation effects of lines 98-101, in program order. -/
def mkdirEffs : List Eff :=
  [.mkdir .train .images, .mkdir .train .labels,
   .mkdir .valid .images, .mkdir .valid .labels,
   .mkdir .test .images, .mkdir .test .labels]

/-- The six bucket lists computed by the two `train_test_split` calls. -/
structure SplitResult where
  trainImages : List String
  trainLabels : List String
  valImages : List String
  valLabels : List String
  testImages : List String
  testLabels : List String
deriving DecidableEq

/-- The moves performed by one `move_files(file_list, source_dir, target_dir)`
call, as source/destination location pairs in list order. -/
def movePairsOf (files : List String) (src dst : Dir) : List (Loc × Loc) :=
  files.map fun f => ((src, f), (dst, f))

/-- All moves of lines 136-143, in program order: train images, train
labels, valid images, valid labels, test images, test labels. -/
def movePairs (r : SplitResult) : List (Loc × Loc) :=
  movePairsOf r.trainImages .poolImages (.out .train .images)
    ++ movePairsOf r.trainLabels .poolLabels (.out .train .labels)
    ++ movePairsOf r.valImages .poolImages (.out .valid .images)
    ++ movePairsOf r.valLabels .poolLabels (.out .valid .labels)
    ++ movePairsOf r.testImages .poolImages (.out .test .images)
    ++ movePairsOf r.testLabels .poolLabels (.out .test .labels)

/-- The move effects of lines 136-143 in program order. -/
def moveEffs (r : SplitResult) : List Eff :=
  (movePairs r).map fun m => .move m.1 m.2

/-- The two chained `train_test_split` calls of lines 122-128 on the matched
pairs.  Python evaluates the `test_size` argument of the second call,
`test_ratio / (val_ratio + test_ratio)` only after the first call returned,
raising `ZeroDivisionError` on a zero divisor. -/
def splitStage (rng : ℕ → List ℕ) (matched : List (String × String))
    (valRatio testRatio : Frac) : Except String SplitResult :=
  match train_test_split (rng (matched.map Prod.fst).length)
      (matched.map Prod.fst) (matched.map Prod.snd)
      (fadd valRatio testRatio) with
  | .error e => .error e
  | .ok (trainImages, tempImages, trainLabels, tempLabels) =>
    if fracEq (fadd valRatio testRatio) fZero then .error "float division by zero"
    else
      match train_test_split (rng tempImages.length) tempImages tempLabels
          (fdiv testRatio (fadd valRatio testRatio)) with
      | .error e => .error e
      | .ok (valImages, testImages, valLabels, testLabels) =>
        .ok ⟨trainImages, trainLabels, valImages, valLabels, testImages, testLabels⟩

/-- The model of `split_data(image_dir, label_dir, output_dir, train_ratio,
val_ratio, test_ratio)` (lines 90-148).  `rng n` stands for the permutation
of `0..n-1` drawn from `numpy.random.RandomState(42)` inside each
`train_test_split` call; `imageFiles` and `labelFiles` are the `os.listdir`
listings of the two pools (arbitrary order — the code sorts them).  The
result is the list of filesystem effects performed, in order, and either
the six bucket lists or the error that aborted the run.  The ratio
assertion of line 95 fires before any directory is created. -/
def split_data (rng : ℕ → List ℕ) (imageFiles labelFiles : List String)
    (trainRatio valRatio testRatio : Frac) :
    List Eff × Except String SplitResult :=
  if ¬ fracEq (fadd (fadd trainRatio valRatio) testRatio) fOne then
    ([], .error "Ratios must sum to 1.")
  else
    match splitStage rng (matchedOf imageFiles labelFiles) valRatio testRatio with
    | .error e => (mkdirEffs, .error e)
    | .ok r => (mkdirEffs ++ moveEffs r, .ok r)

instance {ε α : Type} [DecidableEq ε] [DecidableEq α] : DecidableEq (Except ε α)
  | .ok a, .ok b => decidable_of_iff (a = b) (by simp)
  | .ok _, .error _ => isFalse (by simp)
  | .error _, .ok _ => isFalse (by simp)
  | .error a, .error b => decidable_of_iff (a = b) (by simp)

/-- The result component of a `split_data` outcome, if the run succeeded. -/
def resultOf (out : List Eff × Except String SplitResult) : Option SplitResult :=
  match out.2 with
  | .ok r => some r
  | .error _ => none

/-- The per-bucket image counts reported at lines 145-148, if the run
succeeded. -/
def countsOf (out : List Eff × Except String SplitResult) : Option (ℕ × ℕ × ℕ) :=
  match out.2 with
  | .ok r => some (r.trainImages.length, r.valImages.length, r.testImages.length)
  | .error _ => none

/-- Holds when the run succeeded and, in every bucket, the label list is
exactly the image list with each image replaced by its `<base>.txt` label. -/
def pairedLabels (out : List Eff × Except String SplitResult) : Prop :=
  match out.2 with
  | .ok r =>
    r.trainLabels = r.trainImages.map mkLabelName ∧
    r.valLabels = r.valImages.map mkLabelName ∧
    r.testLabels = r.testImages.map mkLabelName
  | .error _ => False

/-! ### Replaying effects against a directory state -/

/-- Replay one effect against the set of existing files: `os.makedirs` does
not change any file, and `shutil.move` requires the source to exist, then
relocates it. -/
def runEff (s : List Loc) : Eff → Option (List Loc)
  | .mkdir _ _ => some s
  | .move src dst => if src ∈ s then some (dst :: s.erase src) else none

/-- Replay a list of effects in order, failing on the first failing move. -/
def runEffs : List Eff → List Loc → Option (List Loc)
  | [], s => some s
  | e :: es, s =>
    match runEff s e with
    | none => none
    | some t => runEffs es t

/-- The initial directory state: the image pool holds `imageFiles`, the
label pool holds `labelFiles`. -/
def initState (imageFiles labelFiles : List String) : List Loc :=
  imageFiles.map (fun f => (Dir.poolImages, f))
    ++ labelFiles.map (fun f => (Dir.poolLabels, f))

/-- Whether, after replaying `effs` from `init`, the run succeeded and the
location `l` still exists. -/
def survives (effs : List Eff) (init : List Loc) (l : Loc) : Bool :=
  match runEffs effs init with
  | some s => decide (l ∈ s)
  | none => false

/-- The sources of the move effects in a trace, in order. -/
def effSrcs (effs : List Eff) : List Loc :=
  effs.filterMap fun e =>
    match e with
    | .move src _ => some src
    | .mkdir _ _ => none

/-- The destinations of the move effects in a trace, in order. -/
def effDsts (effs : List Eff) : List Loc :=
  effs.filterMap fun e =>
    match e with
    | .move _ dst => some dst
    | .mkdir _ _ => none

/-! ### Concrete pools used as witnesses -/

/-- The identity permutation, a valid instance of the seeded shuffle. -/
def idPerm (n : ℕ) : List ℕ := List.range n

/-- Ten image files `img0001.jpg` … `img0010.jpg`. -/
def tenImages : List String :=
  ["img0001.jpg", "img0002.jpg", "img0003.jpg", "img0004.jpg", "img0005.jpg",
   "img0006.jpg", "img0007.jpg", "img0008.jpg", "img0009.jpg", "img0010.jpg"]

/-- Ten label files `img0001.txt` … `img0010.txt`. -/
def tenLabels : List String :=
  ["img0001.txt", "img0002.txt", "img0003.txt", "img0004.txt", "img0005.txt",
   "img0006.txt", "img0007.txt", "img0008.txt", "img0009.txt", "img0010.txt"]

/-- Ten matched images plus one image without a label. -/
def orphanImages : List String := tenImages ++ ["orphan.jpg"]

/-- Ten matched images plus a second image sharing the base name
`img0001`. -/
def dupBaseImages : List String := tenImages ++ ["img0001.png"]

/-- Image-pool locations of a list of filenames. -/
def imgLocs (l : List String) : List Loc := l.map fun f => (Dir.poolImages, f)

/-- Label-pool locations of a list of filenames. -/
def lblLocs (l : List String) : List Loc := l.map fun f => (Dir.poolLabels, f)

/-- The source locations of all moves of a run, in program order. -/
def srcLocs (r : SplitResult) : List Loc := (movePairs r).map Prod.fst

/-- The destination locations of all moves of a run, in program order. -/
def outLocs (r : SplitResult) : List Loc := (movePairs r).map Prod.snd

/-- The bucket lists `split_data` produces from `tenImages`/`tenLabels` with
the identity permutation and ratios `0.6/0.2/0.2`. -/
def tenResult : SplitResult :=
  ⟨["img0005.jpg", "img0006.jpg", "img0007.jpg", "img0008.jpg", "img0009.jpg", "img0010.jpg"],
   ["img0005.txt", "img0006.txt", "img0007.txt", "img0008.txt", "img0009.txt", "img0010.txt"],
   ["img0003.jpg", "img0004.jpg"], ["img0003.txt", "img0004.txt"],
   ["img0001.jpg", "img0002.jpg"], ["img0001.txt", "img0002.txt"]⟩

/-- The bucket lists `split_data` produces from `orphanImages`/`tenLabels`
with the identity permutation and ratios `0.6/0.2/0.2` (the orphan is not
matched, so the matched set is the same ten pairs). -/
def orphanResult : SplitResult := tenResult

/-! ### Order theory for the string comparison -/

theorem char_toNat_inj {a b : Char} (h : a.toNat = b.toNat) : a = b := by
  apply Char.ext
  apply UInt32.ext
  exact h

theorem lexLe_cons_lt {a b : Char} (h : a.toNat < b.toNat) (as bs : List Char) :
    lexLe (a :: as) (b :: bs) = true := by
  simp [lexLe, h]

theorem lexLe_cons_gt {a b : Char} (h : b.toNat < a.toNat) (as bs : List Char) :
    lexLe (a :: as) (b :: bs) = false := by
  simp [lexLe, h, Nat.lt_asymm h]

theorem lexLe_cons_eq {a b : Char} (h : a.toNat = b.toNat) (as bs : List Char) :
    lexLe (a :: as) (b :: bs) = lexLe as bs := by
  simp [lexLe, h, Nat.lt_irrefl]

theorem lexLe_total : ∀ as bs : List Char, lexLe as bs = true ∨ lexLe bs as = true
  | [], _ => Or.inl rfl
  | _ :: _, [] => Or.inr rfl
  | a :: as, b :: bs => by
    rcases Nat.lt_trichotomy a.toNat b.toNat with h | h | h
    · exact Or.inl (lexLe_cons_lt h as bs)
    · rw [lexLe_cons_eq h as bs, lexLe_cons_eq h.symm bs as]
      exact lexLe_total as bs
    · exact Or.inr (lexLe_cons_lt h bs as)

theorem lexLe_trans : ∀ as bs cs : List Char,
    lexLe as bs = true → lexLe bs cs = true → lexLe as cs = true
  | [], _, _, _, _ => rfl
  | _ :: _, [], _, h, _ => by simp [lexLe] at h
  | _ :: _, _ :: _, [], _, h => by simp [lexLe] at h
  | a :: as, b :: bs, c :: cs, h1, h2 => by
    rcases Nat.lt_trichotomy a.toNat b.toNat with hab | hab | hab
    · rcases Nat.lt_trichotomy b.toNat c.toNat with hbc | hbc | hbc
      · exact lexLe_cons_lt (by omega) as cs
      · exact lexLe_cons_lt (by omega) as cs
      · rw [lexLe_cons_gt hbc bs cs] at h2
        simp at h2
    · rcases Nat.lt_trichotomy b.toNat c.toNat with hbc | hbc | hbc
      · exact lexLe_cons_lt (by omega) as cs
      · rw [lexLe_cons_eq hab as bs] at h1
        rw [lexLe_cons_eq hbc bs cs] at h2
        rw [lexLe_cons_eq (by omega) as cs]
        exact lexLe_trans as bs cs h1 h2
      · rw [lexLe_cons_gt hbc bs cs] at h2
        simp at h2
    · rw [lexLe_cons_gt hab as bs] at h1
      simp at h1

theorem lexLe_antisymm : ∀ as bs : List Char,
    lexLe as bs = true → lexLe bs as = true → as = bs
  | [], [], _, _ => rfl
  | [], _ :: _, _, h => by simp [lexLe] at h
  | _ :: _, [], h, _ => by simp [lexLe] at h
  | a :: as, b :: bs, h1, h2 => by
    rcases Nat.lt_trichotomy a.toNat b.toNat with hab | hab | hab
    · rw [lexLe_cons_gt hab bs as] at h2
      simp at h2
    · rw [lexLe_cons_eq hab as bs] at h1
      rw [lexLe_cons_eq hab.symm bs as] at h2
      rw [char_toNat_inj hab, lexLe_antisymm as bs h1 h2]
    · rw [lexLe_cons_gt hab as bs] at h1
      simp at h1

theorem string_data_inj {a b : String} (h : a.data = b.data) : a = b :=
  congrArg String.mk h

instance : IsTotal String strLe := ⟨fun a b => lexLe_total a.data b.data⟩

instance : IsTrans String strLe := ⟨fun a b c => lexLe_trans a.data b.data c.data⟩

instance : IsAntisymm String strLe :=
  ⟨fun a b h1 h2 => string_data_inj (lexLe_antisymm a.data b.data h1 h2)⟩

/-! ### Sorting lemmas -/

theorem sortStrings_perm (l : List String) : (sortStrings l).Perm l :=
  List.perm_insertionSort strLe l

theorem sortStrings_sorted (l : List String) : List.Sorted strLe (sortStrings l) :=
  List.sorted_insertionSort strLe l

/-- Two listings of the same files sort to the same list: `sorted` makes the
arbitrary `os.listdir` order irrelevant. -/
theorem sortStrings_eq_of_perm {l₁ l₂ : List String} (h : l₁.Perm l₂) :
    sortStrings l₁ = sortStrings l₂ :=
  List.eq_of_perm_of_sorted
    ((sortStrings_perm l₁).trans (h.trans (sortStrings_perm l₂).symm))
    (sortStrings_sorted l₁) (sortStrings_sorted l₂)

/-! ### Lemmas about `select` -/

theorem select_append (i₁ i₂ : List ℕ) (x : List String) :
    select (i₁ ++ i₂) x = select i₁ x ++ select i₂ x :=
  List.map_append _ i₁ i₂

theorem select_range (x : List String) : select (List.range x.length) x = x := by
  apply List.ext_getElem
  · simp [select]
  · intro i h1 h2
    simp only [select, List.getElem_map, List.getElem_range]
    exact List.getD_eq_getElem x "" h2

theorem select_perm {p : List ℕ} {x : List String}
    (hp : p.Perm (List.range x.length)) : (select p x).Perm x := by
  have h2 : (select p x).Perm (select (List.range x.length) x) :=
    hp.map fun i => x.getD i ""
  rwa [select_range] at h2

theorem select_map {idx : List ℕ} {x : List String} {g : String → String}
    (h : ∀ i ∈ idx, i < x.length) :
    select idx (x.map g) = (select idx x).map g := by
  unfold select
  rw [List.map_map]
  apply List.map_congr_left
  intro i hi
  have hlt := h i hi
  have h2 : i < (x.map g).length := by simpa using hlt
  simp only [Function.comp_apply, List.getD_eq_getElem _ _ h2,
    List.getD_eq_getElem _ _ hlt, List.getElem_map]

/-! ### Unpacking the shuffle split -/

theorem validateShuffleSplit_ok {n : ℕ} {t : Frac} {a b : ℕ}
    (h : validateShuffleSplit n t = .ok (a, b)) : n - a ≤ b := by
  unfold validateShuffleSplit at h
  split at h
  · simp at h
  · split at h
    · simp at h
    · simp only [Except.ok.injEq, Prod.mk.injEq] at h
      obtain ⟨ha, hb⟩ := h
      omega

theorem take_drop_concat {p : List ℕ} {nT nTr : ℕ} (hge : p.length - nT ≤ nTr) :
    p.take nT ++ (p.drop nT).take nTr = p := by
  have h : (p.drop nT).take nTr = p.drop nT :=
    List.take_of_length_le (by rw [List.length_drop]; omega)
  rw [h, List.take_append_drop]

theorem train_test_split_ok {perm : List ℕ} {x y : List String} {t : Frac}
    {a b c d : List String}
    (h : train_test_split perm x y t = .ok (a, b, c, d)) :
    y.length = x.length ∧
    ∃ nT nTr, validateShuffleSplit x.length t = .ok (nT, nTr) ∧
      a = select ((perm.drop nT).take nTr) x ∧
      b = select (perm.take nT) x ∧
      c = select ((perm.drop nT).take nTr) y ∧
      d = select (perm.take nT) y := by
  unfold train_test_split at h
  split at h
  · simp at h
  · next hlen =>
    cases hv : validateShuffleSplit x.length t with
    | error e => rw [hv] at h; simp at h
    | ok p =>
      obtain ⟨nT, nTr⟩ := p
      rw [hv] at h
      simp only [Except.ok.injEq, Prod.mk.injEq] at h
      obtain ⟨h1, h2, h3, h4⟩ := h
      exact ⟨by omega, nT, nTr, rfl, h1.symm, h2.symm, h3.symm, h4.symm⟩

/-- Members of the index slices taken from a permutation of `0..n-1` are
below `n`. -/
theorem mem_slice_lt {p : List ℕ} {n k j : ℕ} (hp : p.Perm (List.range n)) :
    ∀ i ∈ (p.drop k).take j, i < n := by
  intro i hi
  have : i ∈ p := (List.take_subset _ _).trans (List.drop_subset _ _) hi
  exact List.mem_range.mp (hp.mem_iff.mp this)

theorem mem_take_lt {p : List ℕ} {n k : ℕ} (hp : p.Perm (List.range n)) :
    ∀ i ∈ p.take k, i < n := by
  intro i hi
  have : i ∈ p := List.take_subset _ _ hi
  exact List.mem_range.mp (hp.mem_iff.mp this)

/-- Main structural lemma about one `train_test_split` call: under a valid
permutation, the two output pieces of `x` rearrange `x` exactly, and when
`y` is the image of `x` under `g`, each output piece of `y` is the image of
the corresponding piece of `x`. -/
theorem train_test_split_parts {perm : List ℕ} {x y : List String} {t : Frac}
    {a b c d : List String} {g : String → String}
    (hp : perm.Perm (List.range x.length))
    (hy : y = x.map g)
    (h : train_test_split perm x y t = .ok (a, b, c, d)) :
    (b ++ a).Perm x ∧ c = a.map g ∧ d = b.map g := by
  obtain ⟨hlen, nT, nTr, hv, ha, hb, hc, hd⟩ := train_test_split_ok h
  have hplen : perm.length = x.length := hp.length_eq.trans (List.length_range _)
  have hconcat : perm.take nT ++ (perm.drop nT).take nTr = perm :=
    take_drop_concat (by rw [hplen]; exact validateShuffleSplit_ok hv)
  constructor
  · rw [ha, hb, ← select_append, hconcat]
    exact select_perm hp
  · constructor
    · rw [hc, hy, select_map (mem_slice_lt hp), ha]
    · rw [hd, hy, select_map (mem_take_lt hp), hb]

/-! ### Unpacking `splitStage` and `split_data` -/

theorem matchedOf_snd (I L : List String) :
    (matchedOf I L).map Prod.snd = ((matchedOf I L).map Prod.fst).map mkLabelName := by
  simp [matchedOf, List.map_map, Function.comp_def]

theorem matchedOf_fst (I L : List String) :
    (matchedOf I L).map Prod.fst =
      (sortStrings I).filter
        fun f => decide (splitextBase f ∈ (sortStrings L).map splitextBase) := by
  simp [matchedOf, List.map_map, Function.comp_def]

theorem matchedOf_fst_nodup {I : List String} (L : List String) (hI : I.Nodup) :
    ((matchedOf I L).map Prod.fst).Nodup := by
  rw [matchedOf_fst]
  exact ((sortStrings_perm I).nodup_iff.mpr hI).filter _

/-- Master lemma for a successful run of the two chained splits: the three
image buckets rearrange the matched images exactly, and in each bucket the label
list is its image list relabelled by `mkLabelName`. -/
theorem splitStage_ok {rng : ℕ → List ℕ} {matched : List (String × String)}
    {vr te : Frac} {r : SplitResult}
    (hrng : ∀ n, (rng n).Perm (List.range n))
    (hy : matched.map Prod.snd = (matched.map Prod.fst).map mkLabelName)
    (h : splitStage rng matched vr te = .ok r) :
    (r.trainImages ++ r.valImages ++ r.testImages).Perm (matched.map Prod.fst) ∧
    r.trainLabels = r.trainImages.map mkLabelName ∧
    r.valLabels = r.valImages.map mkLabelName ∧
    r.testLabels = r.testImages.map mkLabelName := by
  unfold splitStage at h
  cases h1 : train_test_split (rng (matched.map Prod.fst).length)
      (matched.map Prod.fst) (matched.map Prod.snd) (fadd vr te) with
  | error e => rw [h1] at h; simp at h
  | ok q1 =>
    obtain ⟨tI, pI, tL, pL⟩ := q1
    rw [h1] at h
    simp only at h
    split at h
    · simp at h
    · cases h2 : train_test_split (rng pI.length) pI pL
          (fdiv te (fadd vr te)) with
      | error e => rw [h2] at h; simp at h
      | ok q2 =>
        obtain ⟨vI, sI, vL, sL⟩ := q2
        rw [h2] at h
        simp only [Except.ok.injEq] at h
        subst h
        obtain ⟨hperm1, hcL, hpL⟩ :=
          train_test_split_parts (hrng _) hy h1
        obtain ⟨hperm2, hvL, hsL⟩ :=
          train_test_split_parts (hrng _) hpL h2
        refine ⟨?_, hcL, hvL, hsL⟩
        rw [List.append_assoc tI vI sI]
        exact ((List.perm_append_comm.trans hperm2).append_left tI).trans
          (List.perm_append_comm.trans hperm1)

theorem split_data_ok {rng : ℕ → List ℕ} {I L : List String} {tr vr te : Frac}
    {r : SplitResult}
    (h : resultOf (split_data rng I L tr vr te) = some r) :
    splitStage rng (matchedOf I L) vr te = .ok r ∧
    (split_data rng I L tr vr te).1 = mkdirEffs ++ moveEffs r ∧
    fracEq (fadd (fadd tr vr) te) fOne := by
  by_cases hra : fracEq (fadd (fadd tr vr) te) fOne
  · cases hs : splitStage rng (matchedOf I L) vr te with
    | error e =>
      exfalso
      unfold resultOf split_data at h
      rw [if_neg (not_not_intro hra), hs] at h
      simp at h
    | ok r2 =>
      unfold resultOf split_data at h
      rw [if_neg (not_not_intro hra), hs] at h
      simp only [Option.some.injEq] at h
      subst h
      refine ⟨rfl, ?_, hra⟩
      unfold split_data
      rw [if_neg (not_not_intro hra), hs]
  · exfalso
    unfold resultOf split_data at h
    rw [if_pos hra] at h
    simp at h

/-! ### Which errors the split stage can produce -/

theorem validateShuffleSplit_error {n : ℕ} {t : Frac} {e : String}
    (h : validateShuffleSplit n t = .error e) :
    e = "test_size should be either positive and smaller than the number of samples or a float in the (0, 1) range" ∨
    e = "the resulting train set will be empty" := by
  unfold validateShuffleSplit at h
  split at h
  · simp only [Except.error.injEq] at h
    exact Or.inl h.symm
  · split at h
    · simp only [Except.error.injEq] at h
      exact Or.inr h.symm
    · simp at h

theorem train_test_split_error {perm : List ℕ} {x y : List String} {t : Frac}
    {e : String} (h : train_test_split perm x y t = .error e) :
    e = "Found input variables with inconsistent numbers of samples" ∨
    e = "test_size should be either positive and smaller than the number of samples or a float in the (0, 1) range" ∨
    e = "the resulting train set will be empty" := by
  unfold train_test_split at h
  split at h
  · simp only [Except.error.injEq] at h
    exact Or.inl h.symm
  · cases hv : validateShuffleSplit x.length t with
    | error e2 =>
      rw [hv] at h
      simp only [Except.error.injEq] at h
      exact Or.inr (h ▸ validateShuffleSplit_error hv)
    | ok p =>
      obtain ⟨nT, nTr⟩ := p
      rw [hv] at h
      simp at h

theorem splitStage_error_ne {rng : ℕ → List ℕ} {matched : List (String × String)}
    {vr te : Frac} {e : String}
    (h : splitStage rng matched vr te = .error e) : e ≠ "Ratios must sum to 1." := by
  unfold splitStage at h
  cases h1 : train_test_split (rng (matched.map Prod.fst).length)
      (matched.map Prod.fst) (matched.map Prod.snd) (fadd vr te) with
  | error e1 =>
    rw [h1] at h
    simp only [Except.error.injEq] at h
    subst h
    rcases train_test_split_error h1 with h2 | h2 | h2 <;> rw [h2] <;> decide
  | ok q1 =>
    obtain ⟨tI, pI, tL, pL⟩ := q1
    rw [h1] at h
    simp only at h
    split at h
    · simp only [Except.error.injEq] at h
      subst h
      decide
    · cases h2 : train_test_split (rng pI.length) pI pL (fdiv te (fadd vr te)) with
      | error e2 =>
        rw [h2] at h
        simp only [Except.error.injEq] at h
        subst h
        rcases train_test_split_error h2 with h3 | h3 | h3 <;> rw [h3] <;> decide
      | ok q2 =>
        obtain ⟨vI, sI, vL, sL⟩ := q2
        rw [h2] at h
        simp at h

/-! ### The claims -/

/-- Claim C1: in every successful `split_data` run, the train, validation
and test buckets computed by the two `train_test_split` calls form an exact
partition of the matched-pair set: concatenated, the image buckets (and the
label buckets) rearrange the matched images (respectively labels) exactly
— no omission and no duplication — and, the image pool listing being
duplicate-free as every directory listing is, the concatenation is
duplicate-free, so the three buckets are pairwise disjoint. -/
theorem claim_C1 {rng : ℕ → List ℕ} {I L : List String} {tr vr te : Frac}
    {r : SplitResult}
    (hrng : ∀ n, (rng n).Perm (List.range n))
    (hok : resultOf (split_data rng I L tr vr te) = some r)
    (hI : I.Nodup) :
    (r.trainImages ++ r.valImages ++ r.testImages).Perm
      ((matchedOf I L).map Prod.fst) ∧
    (r.trainImages ++ r.valImages ++ r.testImages).Nodup ∧
    (r.trainLabels ++ r.valLabels ++ r.testLabels).Perm
      ((matchedOf I L).map Prod.snd) := by
  obtain ⟨hs, _, _⟩ := split_data_ok hok
  obtain ⟨hperm, h1, h2, h3⟩ := splitStage_ok hrng (matchedOf_snd I L) hs
  refine ⟨hperm, hperm.nodup_iff.mpr (matchedOf_fst_nodup L hI), ?_⟩
  have hL : r.trainLabels ++ r.valLabels ++ r.testLabels =
      (r.trainImages ++ r.valImages ++ r.testImages).map mkLabelName := by
    rw [h1, h2, h3, List.map_append, List.map_append]
  rw [hL, matchedOf_snd]
  exact hperm.map mkLabelName

/-- Witness for C1: the concrete ten-pair pool under the identity
permutation and ratios 0.6/0.2/0.2. -/
theorem claim_C1_witness :
    (tenResult.trainImages ++ tenResult.valImages ++ tenResult.testImages).Perm
      ((matchedOf tenImages tenLabels).map Prod.fst) ∧
    (tenResult.trainImages ++ tenResult.valImages ++ tenResult.testImages).Nodup ∧
    (tenResult.trainLabels ++ tenResult.valLabels ++ tenResult.testLabels).Perm
      ((matchedOf tenImages tenLabels).map Prod.snd) :=
  @claim_C1 idPerm tenImages tenLabels (pyFloat 6 10) (pyFloat 2 10) (pyFloat 2 10)
    tenResult (fun n => List.Perm.refl (List.range n)) (by decide) (by decide)

/-- Claim C2: whenever the float-evaluated sum of the three ratios differs
from 1.0, `split_data` fails at the assertion of line 95 with the
configuration message, performing no effect at all: no output directory is
created and no file is moved.  (The witness instantiates this at ratios
0.5/0.3/0.3, whose float sum is 1.1.) -/
theorem claim_C2 {rng : ℕ → List ℕ} {I L : List String} {tr vr te : Frac}
    (h : ¬ fracEq (fadd (fadd tr vr) te) fOne) :
    split_data rng I L tr vr te = ([], .error "Ratios must sum to 1.") := by
  unfold split_data
  rw [if_pos h]

/-- Witness for C2: ratios 0.5/0.3/0.3 fail the check before any effect. -/
theorem claim_C2_witness :
    ¬ fracEq (fadd (fadd (pyFloat 5 10) (pyFloat 3 10)) (pyFloat 3 10)) fOne ∧
    split_data idPerm tenImages tenLabels (pyFloat 5 10) (pyFloat 3 10) (pyFloat 3 10) =
      ([], .error "Ratios must sum to 1.") :=
  ⟨by decide,
   @claim_C2 idPerm tenImages tenLabels (pyFloat 5 10) (pyFloat 3 10) (pyFloat 3 10)
     (by decide)⟩

/-- Claim C3: in every successful run, the label list of each bucket is exactly
its image list with every image replaced by its `<base>.txt` label, so for
every image placed into a split, the corresponding label is placed into the
labels sub-folder of the same split. -/
theorem claim_C3 {rng : ℕ → List ℕ} {I L : List String} {tr vr te : Frac}
    {r : SplitResult}
    (hrng : ∀ n, (rng n).Perm (List.range n))
    (hok : resultOf (split_data rng I L tr vr te) = some r) :
    r.trainLabels = r.trainImages.map mkLabelName ∧
    r.valLabels = r.valImages.map mkLabelName ∧
    r.testLabels = r.testImages.map mkLabelName ∧
    (∀ f ∈ r.trainImages, mkLabelName f ∈ r.trainLabels) ∧
    (∀ f ∈ r.valImages, mkLabelName f ∈ r.valLabels) ∧
    (∀ f ∈ r.testImages, mkLabelName f ∈ r.testLabels) := by
  obtain ⟨hs, _, _⟩ := split_data_ok hok
  obtain ⟨_, h1, h2, h3⟩ := splitStage_ok hrng (matchedOf_snd I L) hs
  refine ⟨h1, h2, h3, ?_, ?_, ?_⟩
  · intro f hf
    rw [h1]
    exact List.mem_map_of_mem mkLabelName hf
  · intro f hf
    rw [h2]
    exact List.mem_map_of_mem mkLabelName hf
  · intro f hf
    rw [h3]
    exact List.mem_map_of_mem mkLabelName hf

/-- Witness for C3 at the concrete ten-pair pool. -/
theorem claim_C3_witness :
    tenResult.trainLabels = tenResult.trainImages.map mkLabelName ∧
    tenResult.valLabels = tenResult.valImages.map mkLabelName ∧
    tenResult.testLabels = tenResult.testImages.map mkLabelName ∧
    (∀ f ∈ tenResult.trainImages, mkLabelName f ∈ tenResult.trainLabels) ∧
    (∀ f ∈ tenResult.valImages, mkLabelName f ∈ tenResult.valLabels) ∧
    (∀ f ∈ tenResult.testImages, mkLabelName f ∈ tenResult.testLabels) :=
  @claim_C3 idPerm tenImages tenLabels (pyFloat 6 10) (pyFloat 2 10) (pyFloat 2 10)
    tenResult (fun n => List.Perm.refl (List.range n)) (by decide)

/-- Claim C4: `split_data` is deterministic across runs.  The seeded
permutation is a fixed function of the seed, and the pool listings are
sorted before splitting, so two runs over pools with identical contents —
listings that are rearrangements of each other, in whatever order
`os.listdir` returns them — produce identical effects and identical bucket
assignments. -/
theorem claim_C4 {rng : ℕ → List ℕ} {I1 L1 I2 L2 : List String} {tr vr te : Frac}
    (hI : I1.Perm I2) (hL : L1.Perm L2) :
    split_data rng I1 L1 tr vr te = split_data rng I2 L2 tr vr te := by
  have hm : matchedOf I1 L1 = matchedOf I2 L2 := by
    unfold matchedOf
    rw [sortStrings_eq_of_perm hI, sortStrings_eq_of_perm hL]
  unfold split_data
  rw [hm]

/-- Witness for C4: two listing orders of the same two-pair pool. -/
theorem claim_C4_witness :
    split_data idPerm ["b.jpg", "a.jpg"] ["b.txt", "a.txt"]
      (pyFloat 6 10) (pyFloat 2 10) (pyFloat 2 10) =
    split_data idPerm ["a.jpg", "b.jpg"] ["a.txt", "b.txt"]
      (pyFloat 6 10) (pyFloat 2 10) (pyFloat 2 10) :=
  @claim_C4 idPerm ["b.jpg", "a.jpg"] ["b.txt", "a.txt"] ["a.jpg", "b.jpg"]
    ["a.txt", "b.txt"] (pyFloat 6 10) (pyFloat 2 10) (pyFloat 2 10)
    (by decide) (by decide)

/-- Claim C5: in every successful run, a file appears among the output
image buckets exactly when it is an image of the pool whose base name also
occurs among the label base names; and every label placed in a bucket is
the `<base>.txt` companion of such a pool image.  In particular an image
with no matching label, or a label with no matching image, never reaches
any output split. -/
theorem claim_C5 {rng : ℕ → List ℕ} {I L : List String} {tr vr te : Frac}
    {r : SplitResult}
    (hrng : ∀ n, (rng n).Perm (List.range n))
    (hok : resultOf (split_data rng I L tr vr te) = some r) :
    (∀ f, f ∈ r.trainImages ++ r.valImages ++ r.testImages ↔
        f ∈ I ∧ splitextBase f ∈ L.map splitextBase) ∧
    (∀ g ∈ r.trainLabels ++ r.valLabels ++ r.testLabels,
        ∃ f, f ∈ I ∧ splitextBase f ∈ L.map splitextBase ∧ g = mkLabelName f) := by
  obtain ⟨hs, _, _⟩ := split_data_ok hok
  obtain ⟨hperm, h1, h2, h3⟩ := splitStage_ok hrng (matchedOf_snd I L) hs
  have hLm : ∀ s, s ∈ (sortStrings L).map splitextBase ↔ s ∈ L.map splitextBase :=
    fun s => ((sortStrings_perm L).map splitextBase).mem_iff
  have hmem : ∀ f, f ∈ (matchedOf I L).map Prod.fst ↔
      f ∈ I ∧ splitextBase f ∈ L.map splitextBase := by
    intro f
    rw [matchedOf_fst, List.mem_filter, decide_eq_true_iff,
      (sortStrings_perm I).mem_iff, hLm]
  constructor
  · intro f
    rw [hperm.mem_iff, hmem]
  · intro g hg
    rw [h1, h2, h3, ← List.map_append, ← List.map_append] at hg
    obtain ⟨f, hf, hfg⟩ := List.mem_map.mp hg
    have hf2 := (hperm.mem_iff.mp hf)
    rw [hmem] at hf2
    exact ⟨f, hf2.1, hf2.2, hfg.symm⟩

/-- Witness for C5 at the concrete ten-pair pool. -/
theorem claim_C5_witness :
    (∀ f, f ∈ tenResult.trainImages ++ tenResult.valImages ++ tenResult.testImages ↔
        f ∈ tenImages ∧ splitextBase f ∈ tenLabels.map splitextBase) ∧
    (∀ g ∈ tenResult.trainLabels ++ tenResult.valLabels ++ tenResult.testLabels,
        ∃ f, f ∈ tenImages ∧ splitextBase f ∈ tenLabels.map splitextBase ∧
          g = mkLabelName f) :=
  @claim_C5 idPerm tenImages tenLabels (pyFloat 6 10) (pyFloat 2 10) (pyFloat 2 10)
    tenResult (fun n => List.Perm.refl (List.range n)) (by decide)

/-- Counterexample to claim C6: the decimal triple 0.7/0.2/0.1 sums to 1,
and after conversion to doubles the exact sum of the three float values is
within `2 ^ -50` of 1 — yet the float-evaluated sum `0.7 + 0.2 + 0.1`
differs from 1.0 (it is `0.9999999999999999`), so the precondition check
uses exact float equality and rejects this triple: `split_data` aborts with
the configuration error instead of proceeding to the split. -/
theorem claim_C6_counterexample :
    fracLt (fAbs (fSub (fAdd (fAdd (pyFloat 7 10) (pyFloat 2 10)) (pyFloat 1 10)) fOne))
      ⟨1, 1125899906842624⟩ ∧
    ¬ fracEq (fadd (fadd (pyFloat 7 10) (pyFloat 2 10)) (pyFloat 1 10)) fOne ∧
    split_data idPerm tenImages tenLabels (pyFloat 7 10) (pyFloat 2 10) (pyFloat 1 10) =
      ([], .error "Ratios must sum to 1.") := by
  refine ⟨by decide, by decide, ?_⟩
  unfold split_data
  rw [if_pos (by decide)]

/-- Claim C6 amended: a non-negative ratio triple passes the precondition
check exactly when its float-evaluated sum equals 1.0; when it does, the
run proceeds to the split — the six output directories are created and the
assertion error cannot occur.  Triples merely within floating tolerance of
1, such as 0.7/0.2/0.1, are rejected (see the counterexample). -/
theorem claim_C6_amended {rng : ℕ → List ℕ} {I L : List String} {tr vr te : Frac}
    (h : fracEq (fadd (fadd tr vr) te) fOne) :
    (split_data rng I L tr vr te).1.take 6 = mkdirEffs ∧
    (split_data rng I L tr vr te).2 ≠ Except.error "Ratios must sum to 1." := by
  unfold split_data
  rw [if_neg (not_not_intro h)]
  cases hs : splitStage rng (matchedOf I L) vr te with
  | error e =>
    refine ⟨rfl, ?_⟩
    simp only [ne_eq, Except.error.injEq]
    exact splitStage_error_ne hs
  | ok r =>
    refine ⟨?_, by simp⟩
    simp only
    exact List.take_left' rfl

/-- Witness for the amended C6: the default ratios 0.6/0.2/0.2 have float
sum exactly 1.0 and pass the check. -/
theorem claim_C6_amended_witness :
    (split_data idPerm tenImages tenLabels
      (pyFloat 6 10) (pyFloat 2 10) (pyFloat 2 10)).1.take 6 = mkdirEffs ∧
    (split_data idPerm tenImages tenLabels
      (pyFloat 6 10) (pyFloat 2 10) (pyFloat 2 10)).2 ≠
      Except.error "Ratios must sum to 1." :=
  @claim_C6_amended idPerm tenImages tenLabels
    (pyFloat 6 10) (pyFloat 2 10) (pyFloat 2 10) (by decide)

/-- Counterexample to claim C7: with ratios 1/0/0 and a ten-pair pool, the
run does not complete successfully — the ratio check passes and the six
output directories are created, but the first `train_test_split` call
rejects `test_size=0.0`, so the run aborts with no file moved and nothing
assigned to any bucket. -/
theorem claim_C7_counterexample :
    split_data idPerm tenImages tenLabels (pyFloat 1 1) (pyFloat 0 1) (pyFloat 0 1) =
      (mkdirEffs, .error "test_size should be either positive and smaller than the number of samples or a float in the (0, 1) range") := by
  decide

/-- Claim C7 amended: for every pool and every permutation source, ratios
`train=1, val=0, test=0` pass the ratio precondition, the six output
sub-folders are created, and then sklearn rejects the float
`test_size = 0.0 + 0.0 = 0.0` of the first split, so `split_data` aborts:
no matched pair is assigned to any bucket and no file is moved. -/
theorem claim_C7_amended (rng : ℕ → List ℕ) (I L : List String) :
    split_data rng I L (pyFloat 1 1) (pyFloat 0 1) (pyFloat 0 1) =
      (mkdirEffs, .error "test_size should be either positive and smaller than the number of samples or a float in the (0, 1) range") := by
  unfold split_data
  rw [if_neg (not_not_intro (by decide))]
  have hs : splitStage rng (matchedOf I L) (pyFloat 0 1) (pyFloat 0 1) =
      .error "test_size should be either positive and smaller than the number of samples or a float in the (0, 1) range" := by
    unfold splitStage
    have h1 : train_test_split (rng ((matchedOf I L).map Prod.fst).length)
        ((matchedOf I L).map Prod.fst) ((matchedOf I L).map Prod.snd)
        (fadd (pyFloat 0 1) (pyFloat 0 1)) =
        .error "test_size should be either positive and smaller than the number of samples or a float in the (0, 1) range" := by
      unfold train_test_split
      rw [if_neg (by simp)]
      unfold validateShuffleSplit
      rw [if_pos (Or.inl (by decide))]
    rw [h1]
  rw [hs]

/-- Claim C8: with exactly ten matched pairs and ratios 0.6/0.2/0.2, the
run succeeds and assigns exactly 6 pairs to train, 2 to validation and 2 to
test (`ceil(0.4 * 10) = 4` held-out, then `ceil(0.5 * 4) = 2` test), each
image co-located with its `<base>.txt` label in the same split. -/
theorem claim_C8 {rng : ℕ → List ℕ} {I L : List String}
    (hrng : ∀ n, (rng n).Perm (List.range n))
    (hlen : (matchedOf I L).length = 10) :
    countsOf (split_data rng I L (pyFloat 6 10) (pyFloat 2 10) (pyFloat 2 10)) =
      some (6, 2, 2) ∧
    pairedLabels (split_data rng I L (pyFloat 6 10) (pyFloat 2 10) (pyFloat 2 10)) := by
  have hX : ((matchedOf I L).map Prod.fst).length = 10 := by
    rw [List.length_map]; exact hlen
  have hY : ((matchedOf I L).map Prod.snd).length = 10 := by
    rw [List.length_map]; exact hlen
  have hlen10 : (rng 10).length = 10 := (hrng 10).length_eq.trans (List.length_range 10)
  have hlen4 : (rng 4).length = 4 := (hrng 4).length_eq.trans (List.length_range 4)
  have hv1 : validateShuffleSplit 10 (fadd (pyFloat 2 10) (pyFloat 2 10)) = .ok (4, 6) := by
    decide
  have hv2 : validateShuffleSplit 4
      (fdiv (pyFloat 2 10) (fadd (pyFloat 2 10) (pyFloat 2 10))) = .ok (2, 2) := by
    decide
  have htts1 : train_test_split (rng ((matchedOf I L).map Prod.fst).length)
      ((matchedOf I L).map Prod.fst) ((matchedOf I L).map Prod.snd)
      (fadd (pyFloat 2 10) (pyFloat 2 10)) =
      .ok (select (((rng 10).drop 4).take 6) ((matchedOf I L).map Prod.fst),
           select ((rng 10).take 4) ((matchedOf I L).map Prod.fst),
           select (((rng 10).drop 4).take 6) ((matchedOf I L).map Prod.snd),
           select ((rng 10).take 4) ((matchedOf I L).map Prod.snd)) := by
    unfold train_test_split
    rw [if_neg (by rw [hX, hY]; simp), hX, hv1]
  have hlenTemp : (select ((rng 10).take 4) ((matchedOf I L).map Prod.fst)).length = 4 := by
    simp only [select, List.length_map, List.length_take, hlen10]
    omega
  have htts2 : train_test_split
      (rng (select ((rng 10).take 4) ((matchedOf I L).map Prod.fst)).length)
      (select ((rng 10).take 4) ((matchedOf I L).map Prod.fst))
      (select ((rng 10).take 4) ((matchedOf I L).map Prod.snd))
      (fdiv (pyFloat 2 10) (fadd (pyFloat 2 10) (pyFloat 2 10))) =
      .ok (select (((rng 4).drop 2).take 2)
             (select ((rng 10).take 4) ((matchedOf I L).map Prod.fst)),
           select ((rng 4).take 2)
             (select ((rng 10).take 4) ((matchedOf I L).map Prod.fst)),
           select (((rng 4).drop 2).take 2)
             (select ((rng 10).take 4) ((matchedOf I L).map Prod.snd)),
           select ((rng 4).take 2)
             (select ((rng 10).take 4) ((matchedOf I L).map Prod.snd))) := by
    unfold train_test_split
    rw [if_neg (by simp [select]), hlenTemp, hv2]
  have hs : splitStage rng (matchedOf I L) (pyFloat 2 10) (pyFloat 2 10) =
      .ok ⟨select (((rng 10).drop 4).take 6) ((matchedOf I L).map Prod.fst),
           select (((rng 10).drop 4).take 6) ((matchedOf I L).map Prod.snd),
           select (((rng 4).drop 2).take 2)
             (select ((rng 10).take 4) ((matchedOf I L).map Prod.fst)),
           select (((rng 4).drop 2).take 2)
             (select ((rng 10).take 4) ((matchedOf I L).map Prod.snd)),
           select ((rng 4).take 2)
             (select ((rng 10).take 4) ((matchedOf I L).map Prod.fst)),
           select ((rng 4).take 2)
             (select ((rng 10).take 4) ((matchedOf I L).map Prod.snd))⟩ := by
    unfold splitStage
    rw [htts1]
    simp only
    rw [if_neg (by decide), htts2]
  obtain ⟨_, hp1, hp2, hp3⟩ := splitStage_ok hrng (matchedOf_snd I L) hs
  have c1 : (select (((rng 10).drop 4).take 6) ((matchedOf I L).map Prod.fst)).length = 6 := by
    simp only [select, List.length_map, List.length_take, List.length_drop, hlen10]
    omega
  have c2 : (select (((rng 4).drop 2).take 2)
      (select ((rng 10).take 4) ((matchedOf I L).map Prod.fst))).length = 2 := by
    simp only [select, List.length_map, List.length_take, List.length_drop, hlen4]
    omega
  have c3 : (select ((rng 4).take 2)
      (select ((rng 10).take 4) ((matchedOf I L).map Prod.fst))).length = 2 := by
    simp only [select, List.length_map, List.length_take, hlen4]
    omega
  constructor
  · unfold split_data
    rw [if_neg (not_not_intro (by decide)), hs]
    simp only [countsOf, c1, c2, c3]
  · unfold split_data
    rw [if_neg (not_not_intro (by decide)), hs]
    exact ⟨hp1, hp2, hp3⟩

/-- Witness for C8: the concrete ten-pair pool under the identity
permutation. -/
theorem claim_C8_witness :
    countsOf (split_data idPerm tenImages tenLabels
      (pyFloat 6 10) (pyFloat 2 10) (pyFloat 2 10)) = some (6, 2, 2) ∧
    pairedLabels (split_data idPerm tenImages tenLabels
      (pyFloat 6 10) (pyFloat 2 10) (pyFloat 2 10)) :=
  @claim_C8 idPerm tenImages tenLabels
    (fun n => List.Perm.refl (List.range n)) (by decide)

/-! ### Lemmas about replaying effects -/

theorem initState_eq (I L : List String) : initState I L = imgLocs I ++ lblLocs L := rfl

theorem runEffs_append (a b : List Eff) (s : List Loc) :
    runEffs (a ++ b) s =
      match runEffs a s with
      | none => none
      | some t => runEffs b t := by
  induction a generalizing s with
  | nil => rfl
  | cons e es ih =>
    simp only [List.cons_append, runEffs]
    cases runEff s e with
    | none => rfl
    | some t => exact ih t

theorem runEffs_mkdirs (s : List Loc) : runEffs mkdirEffs s = some s := rfl

theorem effSrcs_map_move (mvs : List (Loc × Loc)) :
    effSrcs (mvs.map fun m => Eff.move m.1 m.2) = mvs.map Prod.fst := by
  induction mvs with
  | nil => rfl
  | cons m ms ih =>
    simp only [List.map_cons, effSrcs, List.filterMap_cons] at ih ⊢
    rw [ih]

theorem effDsts_map_move (mvs : List (Loc × Loc)) :
    effDsts (mvs.map fun m => Eff.move m.1 m.2) = mvs.map Prod.snd := by
  induction mvs with
  | nil => rfl
  | cons m ms ih =>
    simp only [List.map_cons, effDsts, List.filterMap_cons] at ih ⊢
    rw [ih]

theorem effSrcs_cons_move (a b : Loc) (es : List Eff) :
    effSrcs (Eff.move a b :: es) = a :: effSrcs es := by
  simp [effSrcs, List.filterMap_cons]

theorem effSrcs_cons_mkdir (sp : SplitName) (k : SubKind) (es : List Eff) :
    effSrcs (Eff.mkdir sp k :: es) = effSrcs es := by
  simp [effSrcs, List.filterMap_cons]

theorem effDsts_cons_move (a b : Loc) (es : List Eff) :
    effDsts (Eff.move a b :: es) = b :: effDsts es := by
  simp [effDsts, List.filterMap_cons]

theorem effDsts_cons_mkdir (sp : SplitName) (k : SubKind) (es : List Eff) :
    effDsts (Eff.mkdir sp k :: es) = effDsts es := by
  simp [effDsts, List.filterMap_cons]

/-- Conservation of supply: a successful replay consumes each location as a
move source at most as often as it was initially present plus deposited as
a move destination. -/
theorem runEffs_count {effs : List Eff} {s S : List Loc}
    (h : runEffs effs s = some S) (p : Loc) :
    (effSrcs effs).count p ≤ s.count p + (effDsts effs).count p := by
  induction effs generalizing s with
  | nil => simp [effSrcs, effDsts]
  | cons e es ih =>
    cases e with
    | mkdir sp k =>
      simp only [runEffs, runEff] at h
      rw [effSrcs_cons_mkdir, effDsts_cons_mkdir]
      exact ih h
    | move a b =>
      simp only [runEffs, runEff] at h
      by_cases ha : a ∈ s
      · rw [if_pos ha] at h
        have hb := ih h
        have hc : 0 < s.count a := List.count_pos_iff.mpr ha
        rw [effSrcs_cons_move, effDsts_cons_move]
        by_cases hpa : a = p
        · subst hpa
          by_cases hpb : b = a
          · subst hpb
            have q1 : (b :: effSrcs es).count b = (effSrcs es).count b + 1 :=
              List.count_cons_self b _
            have q2 : (b :: effDsts es).count b = (effDsts es).count b + 1 :=
              List.count_cons_self b _
            have q3 : (b :: s.erase b).count b = (s.erase b).count b + 1 :=
              List.count_cons_self b _
            have q4 : (s.erase b).count b = s.count b - 1 := List.count_erase_self b s
            omega
          · have q1 : (a :: effSrcs es).count a = (effSrcs es).count a + 1 :=
              List.count_cons_self a _
            have q2 : (b :: effDsts es).count a = (effDsts es).count a :=
              List.count_cons_of_ne (fun he => hpb he.symm) _
            have q3 : (b :: s.erase a).count a = (s.erase a).count a :=
              List.count_cons_of_ne (fun he => hpb he.symm) _
            have q4 : (s.erase a).count a = s.count a - 1 := List.count_erase_self a s
            omega
        · have q1 : (a :: effSrcs es).count p = (effSrcs es).count p :=
            List.count_cons_of_ne (fun he => hpa he.symm) _
          have q4 : (s.erase a).count p = s.count p :=
            List.count_erase_of_ne (fun he => hpa he.symm) s
          by_cases hpb : b = p
          · subst hpb
            have q2 : (b :: effDsts es).count b = (effDsts es).count b + 1 :=
              List.count_cons_self b _
            have q3 : (b :: s.erase a).count b = (s.erase a).count b + 1 :=
              List.count_cons_self b _
            omega
          · have q2 : (b :: effDsts es).count p = (effDsts es).count p :=
              List.count_cons_of_ne (fun he => hpb he.symm) _
            have q3 : (b :: s.erase a).count p = (s.erase a).count p :=
              List.count_cons_of_ne (fun he => hpb he.symm) _
            omega
      · rw [if_neg ha] at h
        exact absurd h (by simp)

/-- Replaying a list of moves with pairwise-distinct sources that are all
present, and destinations disjoint from all sources, succeeds and produces
the destinations plus the untouched part of the original state. -/
theorem runMoves_perm : ∀ (mvs : List (Loc × Loc)) (s : List Loc),
    (mvs.map Prod.fst).Nodup →
    (∀ m ∈ mvs, m.1 ∈ s) →
    (∀ m ∈ mvs, ∀ m2 ∈ mvs, m.2 ≠ m2.1) →
    ∃ S, runEffs (mvs.map fun m => Eff.move m.1 m.2) s = some S ∧
      S.Perm (mvs.map Prod.snd ++ s.diff (mvs.map Prod.fst))
  | [], s, _, _, _ => ⟨s, rfl, by simp⟩
  | (a, b) :: mvs, s, hnd, hsub, hdisj => by
    have ha : a ∈ s := hsub (a, b) (List.mem_cons_self _ _)
    have hndt : (mvs.map Prod.fst).Nodup := (List.nodup_cons.mp (by simpa using hnd)).2
    have hhead : a ∉ mvs.map Prod.fst := (List.nodup_cons.mp (by simpa using hnd)).1
    have hsubt : ∀ m ∈ mvs, m.1 ∈ b :: s.erase a := by
      intro m hm
      have h1 : m.1 ∈ s := hsub m (List.mem_cons_of_mem _ hm)
      have h2 : m.1 ≠ a := by
        intro he
        exact hhead (he ▸ List.mem_map_of_mem Prod.fst hm)
      exact List.mem_cons_of_mem b ((List.mem_erase_of_ne h2).mpr h1)
    have hdisjt : ∀ m ∈ mvs, ∀ m2 ∈ mvs, m.2 ≠ m2.1 := by
      intro m hm m2 hm2
      exact hdisj m (List.mem_cons_of_mem _ hm) m2 (List.mem_cons_of_mem _ hm2)
    obtain ⟨S, hS, hSp⟩ := runMoves_perm mvs (b :: s.erase a) hndt hsubt hdisjt
    refine ⟨S, ?_, ?_⟩
    · show runEffs (Eff.move a b :: mvs.map fun m => Eff.move m.1 m.2) s = some S
      simp only [runEffs, runEff]
      rw [if_pos ha]
      exact hS
    · have hbnot : b ∉ mvs.map Prod.fst := by
        intro hb
        obtain ⟨m2, hm2, hm2e⟩ := List.mem_map.mp hb
        exact hdisj (a, b) (List.mem_cons_self _ _) m2 (List.mem_cons_of_mem _ hm2) hm2e.symm
      have hd1 : (b :: s.erase a).diff (mvs.map Prod.fst) =
          b :: (s.erase a).diff (mvs.map Prod.fst) := by
        rw [List.cons_diff]
        simp [hbnot]
      have hd2 : s.diff (((a, b) :: mvs).map Prod.fst) =
          (s.erase a).diff (mvs.map Prod.fst) := by
        simp only [List.map_cons]
        exact List.diff_cons s (mvs.map Prod.fst) a
      refine hSp.trans ?_
      rw [hd1, hd2]
      simp only [List.map_cons]
      exact List.perm_middle

/-! ### Location groups -/

theorem pairMk_injective (d : Dir) : Function.Injective fun f => ((d, f) : Loc) :=
  fun _ _ h => (Prod.ext_iff.mp h).2

theorem nodup_pairMap {l : List String} (d : Dir) (h : l.Nodup) :
    (l.map fun f => ((d, f) : Loc)).Nodup :=
  h.map (pairMk_injective d)

theorem mem_pairMap {d : Dir} {l : List String} {x : Loc} :
    x ∈ l.map (fun f => ((d, f) : Loc)) ↔ x.1 = d ∧ x.2 ∈ l := by
  rcases x with ⟨xd, xf⟩
  simp only [List.mem_map, Prod.ext_iff]
  constructor
  · rintro ⟨f, hf, h1, h2⟩
    exact ⟨h1.symm, h2 ▸ hf⟩
  · rintro ⟨h1, h2⟩
    exact ⟨xf, h2, h1.symm, rfl⟩

theorem disjoint_pairMap {d1 d2 : Dir} (h : d1 ≠ d2) (l1 l2 : List String) :
    List.Disjoint (l1.map fun f => ((d1, f) : Loc)) (l2.map fun f => ((d2, f) : Loc)) := by
  intro x hx hy
  exact h ((mem_pairMap.mp hx).1.symm.trans (mem_pairMap.mp hy).1)

theorem count_pairMap (d : Dir) (l : List String) (x : Loc) :
    (l.map fun f => ((d, f) : Loc)).count x = if x.1 = d then l.count x.2 else 0 := by
  induction l with
  | nil => simp
  | cons g gs ih =>
    rcases x with ⟨xd, xf⟩
    simp only [List.map_cons, List.count_cons, ih, beq_iff_eq]
    by_cases h1 : xd = d
    · subst h1
      by_cases h2 : g = xf
      · subst h2
        simp
      · have hne : ¬ (((xd, g) : Loc) = (xd, xf)) := by
          intro he
          exact h2 (Prod.ext_iff.mp he).2
        simp [hne, h2]
    · have hne : ¬ (((d, g) : Loc) = (xd, xf)) := by
        intro he
        exact h1 (Prod.ext_iff.mp he).1.symm
      simp [hne, h1]

theorem srcLocs_eq (r : SplitResult) : srcLocs r =
    imgLocs r.trainImages ++ lblLocs r.trainLabels ++ imgLocs r.valImages ++
    lblLocs r.valLabels ++ imgLocs r.testImages ++ lblLocs r.testLabels := by
  simp [srcLocs, movePairs, movePairsOf, imgLocs, lblLocs, List.map_append,
    List.map_map, Function.comp_def]

theorem outLocs_eq (r : SplitResult) : outLocs r =
    (r.trainImages.map fun f => ((Dir.out .train .images : Dir), f)) ++
    (r.trainLabels.map fun f => ((Dir.out .train .labels : Dir), f)) ++
    (r.valImages.map fun f => ((Dir.out .valid .images : Dir), f)) ++
    (r.valLabels.map fun f => ((Dir.out .valid .labels : Dir), f)) ++
    (r.testImages.map fun f => ((Dir.out .test .images : Dir), f)) ++
    (r.testLabels.map fun f => ((Dir.out .test .labels : Dir), f)) := by
  simp [outLocs, movePairs, movePairsOf, List.map_append, List.map_map,
    Function.comp_def]

theorem effSrcs_moveEffs (r : SplitResult) : effSrcs (moveEffs r) = srcLocs r :=
  effSrcs_map_move (movePairs r)

theorem effDsts_moveEffs (r : SplitResult) : effDsts (moveEffs r) = outLocs r :=
  effDsts_map_move (movePairs r)

/-- The move sources, regrouped: pool-image locations of the concatenated
image buckets, then pool-label locations of the concatenated label
buckets. -/
theorem srcLocs_perm (r : SplitResult) : (srcLocs r).Perm
    (imgLocs (r.trainImages ++ r.valImages ++ r.testImages) ++
     lblLocs (r.trainLabels ++ r.valLabels ++ r.testLabels)) := by
  rw [srcLocs_eq]
  apply List.perm_iff_count.mpr
  intro x
  simp only [imgLocs, lblLocs, List.map_append, List.count_append]
  omega

theorem mem_initState_dir {I L : List String} {x : Loc} (h : x ∈ initState I L) :
    x.1 = Dir.poolImages ∨ x.1 = Dir.poolLabels := by
  rw [initState_eq] at h
  rcases List.mem_append.mp h with h2 | h2
  · exact Or.inl (mem_pairMap.mp h2).1
  · exact Or.inr (mem_pairMap.mp h2).1

theorem mem_outLocs_dir {r : SplitResult} {x : Loc} (h : x ∈ outLocs r) :
    ∃ sp k, x.1 = Dir.out sp k := by
  rw [outLocs_eq] at h
  simp only [List.mem_append] at h
  rcases h with ((((h2 | h2) | h2) | h2) | h2) | h2 <;>
    exact ⟨_, _, (mem_pairMap.mp h2).1⟩

theorem movePairs_shape {r : SplitResult} {m : Loc × Loc} (h : m ∈ movePairs r) :
    (m.1.1 = Dir.poolImages ∨ m.1.1 = Dir.poolLabels) ∧
    (∃ sp k, m.2.1 = Dir.out sp k) ∧ m.1 ∈ srcLocs r := by
  have hsrc : m.1 ∈ srcLocs r := List.mem_map_of_mem Prod.fst h
  have hdst : m.2 ∈ outLocs r := List.mem_map_of_mem Prod.snd h
  refine ⟨?_, mem_outLocs_dir hdst, hsrc⟩
  rw [srcLocs_eq] at hsrc
  simp only [List.mem_append] at hsrc
  rcases hsrc with ((((h2 | h2) | h2) | h2) | h2) | h2
  · exact Or.inl (mem_pairMap.mp (by simpa [imgLocs] using h2)).1
  · exact Or.inr (mem_pairMap.mp (by simpa [lblLocs] using h2)).1
  · exact Or.inl (mem_pairMap.mp (by simpa [imgLocs] using h2)).1
  · exact Or.inr (mem_pairMap.mp (by simpa [lblLocs] using h2)).1
  · exact Or.inl (mem_pairMap.mp (by simpa [imgLocs] using h2)).1
  · exact Or.inr (mem_pairMap.mp (by simpa [lblLocs] using h2)).1

theorem initState_nodup {I L : List String} (hI : I.Nodup) (hL : L.Nodup) :
    (initState I L).Nodup := by
  rw [initState_eq]
  rw [List.nodup_append]
  exact ⟨nodup_pairMap _ hI, nodup_pairMap _ hL, disjoint_pairMap (by simp) I L⟩

theorem disjoint_pairMap_append {d : Dir} {l : List String} {xs ys : List Loc}
    (hx : List.Disjoint xs (l.map fun f => ((d, f) : Loc)))
    (hy : List.Disjoint ys (l.map fun f => ((d, f) : Loc))) :
    List.Disjoint (xs ++ ys) (l.map fun f => ((d, f) : Loc)) := by
  intro a ha
  rcases List.mem_append.mp ha with h | h
  · exact hx h
  · exact hy h

theorem imgLocs_def (l : List String) :
    imgLocs l = l.map fun f => ((Dir.poolImages, f) : Loc) := rfl

theorem lblLocs_def (l : List String) :
    lblLocs l = l.map fun f => ((Dir.poolLabels, f) : Loc) := rfl

theorem matched_fst_sub {I L : List String} {f : String}
    (h : f ∈ (matchedOf I L).map Prod.fst) : f ∈ I := by
  rw [matchedOf_fst] at h
  exact (sortStrings_perm I).mem_iff.mp (List.mem_filter.mp h).1

/-- Replaying a successful run against the initial pools succeeds, and the
final directory state is exactly: all bucket destinations, plus whatever
the pools held that was never a move source — each location exactly once.
The hypotheses record that directory listings are duplicate-free, that
matched label names are pairwise distinct (two images sharing a base name
violate this — see the duplicate-base claim), and that every matched label
name is actually present in the label pool (labels carry the `.txt`
extension the script assumes). -/
theorem split_data_replay {rng : ℕ → List ℕ} {I L : List String} {tr vr te : Frac}
    {r : SplitResult}
    (hrng : ∀ n, (rng n).Perm (List.range n))
    (hok : resultOf (split_data rng I L tr vr te) = some r)
    (hI : I.Nodup) (hL : L.Nodup)
    (hM : ((matchedOf I L).map Prod.snd).Nodup)
    (hsubL : ∀ g ∈ (matchedOf I L).map Prod.snd, g ∈ L) :
    ∃ S, runEffs (split_data rng I L tr vr te).1 (initState I L) = some S ∧
      S.Perm (outLocs r ++ (initState I L).diff (srcLocs r)) ∧ S.Nodup := by
  obtain ⟨hs, heff, _⟩ := split_data_ok hok
  obtain ⟨hperm, h1, h2, h3⟩ := splitStage_ok hrng (matchedOf_snd I L) hs
  have hlabperm : (r.trainLabels ++ r.valLabels ++ r.testLabels).Perm
      ((matchedOf I L).map Prod.snd) := by
    have e : r.trainLabels ++ r.valLabels ++ r.testLabels
        = (r.trainImages ++ r.valImages ++ r.testImages).map mkLabelName := by
      rw [h1, h2, h3, List.map_append, List.map_append]
    rw [e, matchedOf_snd]
    exact hperm.map mkLabelName
  have hBI : (r.trainImages ++ r.valImages ++ r.testImages).Nodup :=
    hperm.nodup_iff.mpr (matchedOf_fst_nodup L hI)
  have hBL : (r.trainLabels ++ r.valLabels ++ r.testLabels).Nodup :=
    hlabperm.nodup_iff.mpr hM
  have hsrcnd : (srcLocs r).Nodup := by
    apply (srcLocs_perm r).nodup_iff.mpr
    rw [List.nodup_append, imgLocs_def, lblLocs_def]
    exact ⟨nodup_pairMap _ hBI, nodup_pairMap _ hBL, disjoint_pairMap (by simp) _ _⟩
  have hsub : ∀ m ∈ movePairs r, m.1 ∈ initState I L := by
    intro m hm
    have hms : m.1 ∈ srcLocs r := List.mem_map_of_mem Prod.fst hm
    have hmem := (srcLocs_perm r).mem_iff.mp hms
    rw [initState_eq]
    rcases List.mem_append.mp hmem with hmm | hmm
    · rw [imgLocs_def] at hmm
      obtain ⟨hd, hf⟩ := mem_pairMap.mp hmm
      have hfI : m.1.2 ∈ I := matched_fst_sub (hperm.mem_iff.mp hf)
      apply List.mem_append_left
      rw [imgLocs_def]
      exact mem_pairMap.mpr ⟨hd, hfI⟩
    · rw [lblLocs_def] at hmm
      obtain ⟨hd, hf⟩ := mem_pairMap.mp hmm
      have hfL : m.1.2 ∈ L := hsubL _ (hlabperm.mem_iff.mp hf)
      apply List.mem_append_right
      rw [lblLocs_def]
      exact mem_pairMap.mpr ⟨hd, hfL⟩
  have hdisj : ∀ m ∈ movePairs r, ∀ m2 ∈ movePairs r, m.2 ≠ m2.1 := by
    intro m hm m2 hm2 he
    obtain ⟨_, ⟨sp, k, hdst⟩, _⟩ := movePairs_shape hm
    obtain ⟨hsrc, _, _⟩ := movePairs_shape hm2
    rw [he] at hdst
    rcases hsrc with h' | h' <;> rw [h'] at hdst <;> exact Dir.noConfusion hdst
  obtain ⟨S, hS, hSp⟩ := runMoves_perm (movePairs r) (initState I L) hsrcnd hsub hdisj
  have hTI : r.trainImages.Nodup := hBI.of_append_left.of_append_left
  have hVI : r.valImages.Nodup := hBI.of_append_left.of_append_right
  have hSI : r.testImages.Nodup := hBI.of_append_right
  have hTL : r.trainLabels.Nodup := hBL.of_append_left.of_append_left
  have hVL : r.valLabels.Nodup := hBL.of_append_left.of_append_right
  have hSL : r.testLabels.Nodup := hBL.of_append_right
  have houtnd : (outLocs r).Nodup := by
    rw [outLocs_eq]
    exact ((((((nodup_pairMap _ hTI).append (nodup_pairMap _ hTL)
      (disjoint_pairMap (by decide) _ _)).append (nodup_pairMap _ hVI)
      (disjoint_pairMap_append (disjoint_pairMap (by decide) _ _)
        (disjoint_pairMap (by decide) _ _))).append (nodup_pairMap _ hVL)
      (disjoint_pairMap_append (disjoint_pairMap_append
        (disjoint_pairMap (by decide) _ _) (disjoint_pairMap (by decide) _ _))
        (disjoint_pairMap (by decide) _ _))).append (nodup_pairMap _ hSI)
      (disjoint_pairMap_append (disjoint_pairMap_append (disjoint_pairMap_append
        (disjoint_pairMap (by decide) _ _) (disjoint_pairMap (by decide) _ _))
        (disjoint_pairMap (by decide) _ _))
        (disjoint_pairMap (by decide) _ _))).append (nodup_pairMap _ hSL)
      (disjoint_pairMap_append (disjoint_pairMap_append (disjoint_pairMap_append
        (disjoint_pairMap_append (disjoint_pairMap (by decide) _ _)
          (disjoint_pairMap (by decide) _ _)) (disjoint_pairMap (by decide) _ _))
        (disjoint_pairMap (by decide) _ _)) (disjoint_pairMap (by decide) _ _)))
  have hrhsnd : (outLocs r ++ (initState I L).diff (srcLocs r)).Nodup := by
    rw [List.nodup_append]
    refine ⟨houtnd,
      List.Nodup.sublist (List.diff_sublist _ _) (initState_nodup hI hL), ?_⟩
    intro x hx hy
    obtain ⟨sp, k, hd⟩ := mem_outLocs_dir hx
    rcases mem_initState_dir (List.diff_subset _ _ hy) with h' | h' <;>
      rw [h'] at hd <;> exact Dir.noConfusion hd
  refine ⟨S, ?_, hSp, hSp.nodup_iff.mpr hrhsnd⟩
  rw [heff, runEffs_append, runEffs_mkdirs]
  exact hS

/-- Permutations preserve counts (generic over the `BEq` instance). -/
theorem perm_count {α : Type} [BEq α] {l1 l2 : List α} (h : l1.Perm l2) (a : α) :
    l1.count a = l2.count a :=
  h.countP_eq _

theorem nodup_not_mem_erase {α : Type} [BEq α] [LawfulBEq α] :
    ∀ {l : List α}, l.Nodup → ∀ {a : α}, a ∉ l.erase a
  | [], _, _, hmem => by simp at hmem
  | b :: t, hl, a, hmem => by
    rw [List.erase_cons] at hmem
    by_cases hba : (b == a) = true
    · rw [if_pos hba] at hmem
      exact (List.nodup_cons.mp hl).1 (by rw [eq_of_beq hba]; exact hmem)
    · rw [if_neg hba] at hmem
      rcases List.mem_cons.mp hmem with h | h
      · exact hba (beq_iff_eq.mpr h.symm)
      · exact nodup_not_mem_erase (List.nodup_cons.mp hl).2 h

theorem nodup_not_mem_diff {α : Type} [BEq α] [LawfulBEq α] :
    ∀ {d l : List α}, l.Nodup → ∀ {x : α}, x ∈ d → x ∉ l.diff d
  | [], _, _, _, hd, _ => by simp at hd
  | a :: d, l, hl, x, hd, hmem => by
    rw [List.diff_cons] at hmem
    have hle : (l.erase a).Nodup := List.Nodup.sublist (List.erase_sublist a l) hl
    rcases List.mem_cons.mp hd with h | h
    · have hsub : x ∈ l.erase a := (List.diff_sublist _ _).subset hmem
      rw [h] at hsub
      exact nodup_not_mem_erase hl hsub
    · exact nodup_not_mem_diff hle h hmem

/-- Fully computed form of the two chained splits, given the concrete
outcomes of the two size validations. -/
theorem splitStage_computed {rng : ℕ → List ℕ} {M : List (String × String)}
    {vr te : Frac} {n nT1 nTr1 nT2 nTr2 : ℕ}
    (hlen : M.length = n)
    (hrlen : (rng n).length = n)
    (hv1 : validateShuffleSplit n (fadd vr te) = .ok (nT1, nTr1))
    (hdz : ¬ fracEq (fadd vr te) fZero)
    (hmin : min nT1 n = nT1)
    (hv2 : validateShuffleSplit nT1 (fdiv te (fadd vr te)) = .ok (nT2, nTr2)) :
    splitStage rng M vr te =
      .ok ⟨select (((rng n).drop nT1).take nTr1) (M.map Prod.fst),
           select (((rng n).drop nT1).take nTr1) (M.map Prod.snd),
           select (((rng nT1).drop nT2).take nTr2)
             (select ((rng n).take nT1) (M.map Prod.fst)),
           select (((rng nT1).drop nT2).take nTr2)
             (select ((rng n).take nT1) (M.map Prod.snd)),
           select ((rng nT1).take nT2) (select ((rng n).take nT1) (M.map Prod.fst)),
           select ((rng nT1).take nT2) (select ((rng n).take nT1) (M.map Prod.snd))⟩ := by
  have hX : (M.map Prod.fst).length = n := by rw [List.length_map, hlen]
  have hY : (M.map Prod.snd).length = n := by rw [List.length_map, hlen]
  have htts1 : train_test_split (rng (M.map Prod.fst).length)
      (M.map Prod.fst) (M.map Prod.snd) (fadd vr te) =
      .ok (select (((rng n).drop nT1).take nTr1) (M.map Prod.fst),
           select ((rng n).take nT1) (M.map Prod.fst),
           select (((rng n).drop nT1).take nTr1) (M.map Prod.snd),
           select ((rng n).take nT1) (M.map Prod.snd)) := by
    unfold train_test_split
    rw [if_neg (by rw [hX, hY]; simp), hX, hv1]
  have hlenTemp : (select ((rng n).take nT1) (M.map Prod.fst)).length = nT1 := by
    simp only [select, List.length_map, List.length_take, hrlen, hX]
    exact hmin
  have htts2 : train_test_split
      (rng (select ((rng n).take nT1) (M.map Prod.fst)).length)
      (select ((rng n).take nT1) (M.map Prod.fst))
      (select ((rng n).take nT1) (M.map Prod.snd))
      (fdiv te (fadd vr te)) =
      .ok (select (((rng nT1).drop nT2).take nTr2)
             (select ((rng n).take nT1) (M.map Prod.fst)),
           select ((rng nT1).take nT2) (select ((rng n).take nT1) (M.map Prod.fst)),
           select (((rng nT1).drop nT2).take nTr2)
             (select ((rng n).take nT1) (M.map Prod.snd)),
           select ((rng nT1).take nT2) (select ((rng n).take nT1) (M.map Prod.snd))) := by
    unfold train_test_split
    rw [if_neg (by simp [select]), hlenTemp, hv2]
  unfold splitStage
  rw [htts1]
  simp only
  rw [if_neg hdz, htts2]

/-- Counterexample to claim C9: a pool of ten matched pairs plus one image
without a label.  The run completes (6/2/2 pairs are moved), yet the image
pool is not empty afterwards: the unmatched `orphan.jpg` is never moved and
survives in the flat pool, so "the flat pools are empty after completion"
fails. -/
theorem claim_C9_counterexample :
    countsOf (split_data idPerm orphanImages tenLabels
      (pyFloat 6 10) (pyFloat 2 10) (pyFloat 2 10)) = some (6, 2, 2) ∧
    "orphan.jpg" ∈ orphanImages ∧
    survives (split_data idPerm orphanImages tenLabels
        (pyFloat 6 10) (pyFloat 2 10) (pyFloat 2 10)).1
      (initState orphanImages tenLabels) (Dir.poolImages, "orphan.jpg") = true := by
  decide

/-- Claim C9 amended: after a successful run, replaying its effects always
succeeds, and the final directory state is, up to order and without any
duplicate, exactly the bucket destinations plus whatever the pools held
that was never a move source.  Hence every matched image has left the image
pool, each file exists in exactly one place, and the pools are emptied only
of matched files: an unmatched pool image survives in the flat pool.
(Hypotheses: the listings are duplicate-free; matched label names are
pairwise distinct and are actually present in the label pool.) -/
theorem claim_C9_amended {rng : ℕ → List ℕ} {I L : List String} {tr vr te : Frac}
    {r : SplitResult}
    (hrng : ∀ n, (rng n).Perm (List.range n))
    (hok : resultOf (split_data rng I L tr vr te) = some r)
    (hI : I.Nodup) (hL : L.Nodup)
    (hM : ((matchedOf I L).map Prod.snd).Nodup)
    (hsubL : ∀ g ∈ (matchedOf I L).map Prod.snd, g ∈ L) :
    runEffs (split_data rng I L tr vr te).1 (initState I L) ≠ none ∧
    ∀ S, runEffs (split_data rng I L tr vr te).1 (initState I L) = some S →
      S.Perm (outLocs r ++ (initState I L).diff (srcLocs r)) ∧ S.Nodup ∧
      (∀ f ∈ (matchedOf I L).map Prod.fst, ((Dir.poolImages, f) : Loc) ∉ S) ∧
      (∀ f ∈ I, f ∉ (matchedOf I L).map Prod.fst →
        ((Dir.poolImages, f) : Loc) ∈ S) := by
  obtain ⟨S0, hS0, hS0p, hS0nd⟩ := split_data_replay hrng hok hI hL hM hsubL
  obtain ⟨hs, _, _⟩ := split_data_ok hok
  obtain ⟨hperm, h1, h2, h3⟩ := splitStage_ok hrng (matchedOf_snd I L) hs
  refine ⟨by rw [hS0]; simp, ?_⟩
  intro S hS
  rw [hS0] at hS
  obtain rfl : S0 = S := Option.some.inj hS
  refine ⟨hS0p, hS0nd, ?_, ?_⟩
  · intro f hf hfS
    rcases List.mem_append.mp (hS0p.mem_iff.mp hfS) with hmem | hmem
    · obtain ⟨sp, k, hd⟩ := mem_outLocs_dir hmem
      exact Dir.noConfusion hd
    · have hfsrc : ((Dir.poolImages, f) : Loc) ∈ srcLocs r := by
        apply (srcLocs_perm r).mem_iff.mpr
        apply List.mem_append_left
        rw [imgLocs_def]
        exact mem_pairMap.mpr ⟨rfl, hperm.mem_iff.mpr hf⟩
      exact nodup_not_mem_diff (initState_nodup hI hL) hfsrc hmem
  · intro f hfI hfnm
    apply hS0p.mem_iff.mpr
    apply List.mem_append_right
    apply List.mem_diff_of_mem
    · rw [initState_eq]
      apply List.mem_append_left
      rw [imgLocs_def]
      exact mem_pairMap.mpr ⟨rfl, hfI⟩
    · intro hmem
      rcases List.mem_append.mp ((srcLocs_perm r).mem_iff.mp hmem) with hm | hm
      · rw [imgLocs_def] at hm
        exact hfnm (hperm.mem_iff.mp (mem_pairMap.mp hm).2)
      · rw [lblLocs_def] at hm
        exact Dir.noConfusion (mem_pairMap.mp hm).1

/-- Witness for the amended C9 at the orphan pool. -/
theorem claim_C9_amended_witness :
    runEffs (split_data idPerm orphanImages tenLabels
        (pyFloat 6 10) (pyFloat 2 10) (pyFloat 2 10)).1
      (initState orphanImages tenLabels) ≠ none ∧
    ∀ S, runEffs (split_data idPerm orphanImages tenLabels
        (pyFloat 6 10) (pyFloat 2 10) (pyFloat 2 10)).1
      (initState orphanImages tenLabels) = some S →
      S.Perm (outLocs orphanResult ++
        (initState orphanImages tenLabels).diff (srcLocs orphanResult)) ∧ S.Nodup ∧
      (∀ f ∈ (matchedOf orphanImages tenLabels).map Prod.fst,
        ((Dir.poolImages, f) : Loc) ∉ S) ∧
      (∀ f ∈ orphanImages, f ∉ (matchedOf orphanImages tenLabels).map Prod.fst →
        ((Dir.poolImages, f) : Loc) ∈ S) :=
  @claim_C9_amended idPerm orphanImages tenLabels
    (pyFloat 6 10) (pyFloat 2 10) (pyFloat 2 10) orphanResult
    (fun n => List.Perm.refl (List.range n)) (by decide) (by decide) (by decide)
    (by decide) (by decide)

/-- Claim C10: if two pool images share a base name that has a label (here
`img0001.jpg` and `img0001.png`, both matching `img0001.txt`), the matched
list contains the label filename `img0001.txt` twice, and replaying the
moves of the run fails: the second move of the already-moved label file finds no
source, the fatal error `shutil.move` raises mid-relocation. -/
theorem claim_C10 {rng : ℕ → List ℕ}
    (hrng : ∀ n, (rng n).Perm (List.range n)) :
    ((matchedOf dupBaseImages tenLabels).map Prod.snd).count "img0001.txt" = 2 ∧
    runEffs (split_data rng dupBaseImages tenLabels
        (pyFloat 6 10) (pyFloat 2 10) (pyFloat 2 10)).1
      (initState dupBaseImages tenLabels) = none := by
  refine ⟨by decide, ?_⟩
  obtain ⟨R, hs⟩ : ∃ R, splitStage rng (matchedOf dupBaseImages tenLabels)
      (pyFloat 2 10) (pyFloat 2 10) = .ok R :=
    ⟨_, @splitStage_computed rng (matchedOf dupBaseImages tenLabels)
      (pyFloat 2 10) (pyFloat 2 10) 11 5 6 3 2 (by decide)
      ((hrng 11).length_eq.trans (List.length_range 11)) (by decide) (by decide)
      (by decide) (by decide)⟩
  obtain ⟨hperm, h1, h2, h3⟩ := splitStage_ok hrng (matchedOf_snd _ _) hs
  have heff : (split_data rng dupBaseImages tenLabels
      (pyFloat 6 10) (pyFloat 2 10) (pyFloat 2 10)).1 = mkdirEffs ++ moveEffs R := by
    unfold split_data
    rw [if_neg (not_not_intro (by decide)), hs]
  rw [heff, runEffs_append, runEffs_mkdirs]
  show runEffs (moveEffs R) (initState dupBaseImages tenLabels) = none
  cases hrun : runEffs (moveEffs R) (initState dupBaseImages tenLabels) with
  | none => rfl
  | some S =>
    exfalso
    have hcnt := runEffs_count hrun ((Dir.poolLabels, "img0001.txt") : Loc)
    rw [effSrcs_moveEffs, effDsts_moveEffs] at hcnt
    have hlabperm : (R.trainLabels ++ R.valLabels ++ R.testLabels).Perm
        ((matchedOf dupBaseImages tenLabels).map Prod.snd) := by
      have e : R.trainLabels ++ R.valLabels ++ R.testLabels
          = (R.trainImages ++ R.valImages ++ R.testImages).map mkLabelName := by
        rw [h1, h2, h3, List.map_append, List.map_append]
      rw [e, matchedOf_snd]
      exact hperm.map mkLabelName
    have hsrccount : (srcLocs R).count ((Dir.poolLabels, "img0001.txt") : Loc) = 2 := by
      have hpc := perm_count hlabperm "img0001.txt"
      rw [List.count_append, List.count_append] at hpc
      have hm2 : ((matchedOf dupBaseImages tenLabels).map Prod.snd).count
          "img0001.txt" = 2 := by decide
      rw [hm2] at hpc
      rw [srcLocs_eq, imgLocs_def, imgLocs_def, imgLocs_def,
        lblLocs_def, lblLocs_def, lblLocs_def]
      simp only [List.count_append, count_pairMap]
      simp
      omega
    have hdstcount : (outLocs R).count ((Dir.poolLabels, "img0001.txt") : Loc) = 0 := by
      rw [outLocs_eq]
      simp only [List.count_append, count_pairMap]
      simp
    have hinit : (initState dupBaseImages tenLabels).count
        ((Dir.poolLabels, "img0001.txt") : Loc) = 1 := by decide
    rw [hsrccount, hdstcount, hinit] at hcnt
    omega

/-- Witness for C10 at the identity permutation. -/
theorem claim_C10_witness :
    ((matchedOf dupBaseImages tenLabels).map Prod.snd).count "img0001.txt" = 2 ∧
    runEffs (split_data idPerm dupBaseImages tenLabels
        (pyFloat 6 10) (pyFloat 2 10) (pyFloat 2 10)).1
      (initState dupBaseImages tenLabels) = none :=
  @claim_C10 idPerm (fun n => List.Perm.refl (List.range n))

end CreateNewSplit
